import Mathlib

/-!
Verification of the hospital-to-region mapping core of the repository
(`dataset_mapping.py`): the proportional apportioner
`allocate_hospitals_proportional` and the assigner
`assign_hospitals_to_regions`.

Modelling decisions, each traceable to a source line:

* Python dicts preserve insertion order, so a dict is embedded as an
  association list `List (String × _)` whose key column is `Nodup`
  (dict keys are unique).
* The numeric weights and the exact shares `population / total_population *
  total_hospitals` are embedded in `ℚ` (exact arithmetic); `floor` is
  `Int.floor`.
* Python `sorted(items, key=lambda x: x[1], reverse=True)` is a stable sort
  placing larger second components first: equal keys keep their original
  relative order.  It is embedded as `List.insertionSort fracGe`, whose
  `orderedInsert` places an element before the first element it is ≥ to —
  the same stable descending order.
* `random.seed` / `random.shuffle` are standard-library routines, not code
  of this repository.  They are modelled as parameters: an abstract
  generator state type `σ`, a seeding map `seedFn : ℤ → σ`, and a
  deterministic `shuffleFn : σ → List String → List String × σ` returning
  the permuted list and the advanced state (Python shuffles in place, so
  the returned list is the final content of the caller's list argument).
* The only runtime failure of `allocate_hospitals_proportional` is the
  `ZeroDivisionError` raised by `population / total_population` on a zero
  population sum with at least one region, hence the `Except` result.
  `assign_hospitals_to_regions` raises nothing (Python slices clamp), so it
  is a total function.
-/

namespace DatasetMapping

/-- `total_population = sum(regions.values())`  (dataset_mapping.py line 23). -/
def totalPopulation (regions : List (String × ℚ)) : ℚ :=
  (regions.map Prod.snd).sum

/-- Sum of the counts of an allocation, `sum(allocation.values())`
(dataset_mapping.py line 36). -/
def sumCounts (allocation : List (String × ℤ)) : ℤ :=
  (allocation.map Prod.snd).sum

/-- The comparison used by `sorted(..., key=lambda x: x[1], reverse=True)`
(dataset_mapping.py line 41): descending in the fractional part. -/
def fracGe (a b : String × ℚ) : Prop := b.2 ≤ a.2

instance : DecidableRel fracGe := fun a b => inferInstanceAs (Decidable (b.2 ≤ a.2))

instance : IsTotal (String × ℚ) fracGe := ⟨fun a b => le_total b.2 a.2⟩

instance : IsTrans (String × ℚ) fracGe := ⟨fun _ _ _ h1 h2 => le_trans h2 h1⟩

/-- The floor step (dataset_mapping.py lines 28-32): for each region,
`allocated = floor(population / total_population * total_hospitals)`,
recorded in insertion order. -/
def baseAllocation (regions : List (String × ℚ)) (total : ℤ) : List (String × ℤ) :=
  regions.map fun p => (p.1, ⌊p.2 / totalPopulation regions * (total : ℚ)⌋)

/-- The fractional remainders (dataset_mapping.py line 33):
`fractional_allocation[region] = exact_allocation - allocated`. -/
def fractionalAllocation (regions : List (String × ℚ)) (total : ℤ) : List (String × ℚ) :=
  regions.map fun p =>
    (p.1, p.2 / totalPopulation regions * (total : ℚ) -
      (⌊p.2 / totalPopulation regions * (total : ℚ)⌋ : ℚ))

/-- `remaining = total_hospitals - allocated_total` (dataset_mapping.py
lines 36-37). -/
def remainingCount (regions : List (String × ℚ)) (total : ℤ) : ℤ :=
  total - sumCounts (baseAllocation regions total)

/-- The regions receiving one extra unit (dataset_mapping.py lines 41-46):
the loop over `sorted_regions` stops once `remaining` hits `0`, so exactly
the first `remaining` entries of the stable descending sort are awarded. -/
def winnersList (regions : List (String × ℚ)) (total : ℤ) : List String :=
  ((List.insertionSort fracGe (fractionalAllocation regions total)).take
    (remainingCount regions total).toNat).map Prod.fst

/-- `allocate_hospitals_proportional` without the `random.seed` call
(dataset_mapping.py lines 23-48).  The `Except.error` branch is the
`ZeroDivisionError` of `population / total_population` when the population
sum is zero and at least one region exists (with no regions the loop body
never runs and no division is evaluated). -/
def allocateCore (regions : List (String × ℚ)) (total : ℤ) :
    Except String (List (String × ℤ)) :=
  if regions ≠ [] ∧ totalPopulation regions = 0 then
    Except.error "ZeroDivisionError: division by zero"
  else if 0 < remainingCount regions total then
    Except.ok ((baseAllocation regions total).map fun p =>
      (p.1, p.2 + if p.1 ∈ winnersList regions total then 1 else 0))
  else
    Except.ok (baseAllocation regions total)

/-- `allocate_hospitals_proportional` with its seeding side effect
(dataset_mapping.py lines 8-48): `random.seed(seed)` overwrites the
process-wide generator state when `seed is not None`; the allocation
arithmetic never reads the generator.  Returns (result, final generator
state). -/
def allocateFull (σ : Type) (seedFn : ℤ → σ) (regions : List (String × ℚ))
    (total : ℤ) (seed : Option ℤ) (rngState : σ) :
    Except String (List (String × ℤ)) × σ :=
  let rngSeeded := match seed with
    | some s => seedFn s
    | none => rngState
  (allocateCore regions total, rngSeeded)

/-- Python list slicing `l[a:b]` with step 1: negative indices count from
the end, then both bounds clamp to `[0, len(l)]`. -/
def pySlice (l : List String) (a b : ℤ) : List String :=
  let L : ℤ := l.length
  let norm : ℤ → ℤ := fun i => if i < 0 then max 0 (L + i) else min i L
  (l.take (norm b).toNat).drop (norm a).toNat

/-- The assignment loop of `assign_hospitals_to_regions`
(dataset_mapping.py lines 66-73): walk the allocation in dict order,
consuming `hospitals[current_index : current_index + count]` for each
region and advancing `current_index += count`.  The mapping dict is
embedded as the association list of `(hospital, region)` writes in
execution order (for the inputs considered in the theorems below the
written keys are distinct, so this list is the dict). -/
def assignGo (hospitals : List String) :
    List (String × ℤ) → ℤ → List (String × String)
  | [], _ => []
  | (region, count) :: rest, currentIndex =>
    ((pySlice hospitals currentIndex (currentIndex + count)).map fun h => (h, region))
      ++ assignGo hospitals rest (currentIndex + count)

/-- `assign_hospitals_to_regions` after the shuffle (dataset_mapping.py
lines 66-73). -/
def assignCore (hospitals : List String) (allocation : List (String × ℤ)) :
    List (String × String) :=
  assignGo hospitals allocation 0

/-- `assign_hospitals_to_regions` with its side effects (dataset_mapping.py
lines 50-73): optional seeding of the process-wide generator, then
`random.shuffle(hospitals)` permutes the argument list in place and
advances the generator.  Returns (mapping, final content of the
`hospitals` argument, final generator state). -/
def assignFull (σ : Type) (seedFn : ℤ → σ)
    (shuffleFn : σ → List String → List String × σ)
    (hospitals : List String) (allocation : List (String × ℤ))
    (seed : Option ℤ) (rngState : σ) :
    List (String × String) × List String × σ :=
  let rngSeeded := match seed with
    | some s => seedFn s
    | none => rngState
  let shuffled := (shuffleFn rngSeeded hospitals).1
  (assignCore shuffled allocation, shuffled, (shuffleFn rngSeeded hospitals).2)

/-- The total number of hospitals consumed by an allocation, as a natural
number: Python's slice lengths clamp negative counts to zero, and
`sum(allocation.values())` for the non-negative allocations of the claims
agrees with this value. -/
def sumCountsNat (allocation : List (String × ℤ)) : ℕ :=
  (allocation.map fun p => p.2.toNat).sum

/-- A concrete deterministic instance of the generator model, used to
evaluate the stateful wrappers on concrete inputs: the state is a `ℕ`
counter, seeding maps the seed into a fresh state, and the shuffle
reverses the list and advances the counter. -/
def revShuffle : ℕ → List String → List String × ℕ := fun st l => (l.reverse, st + 1)

/-- Concrete seeding map for the `ℕ`-counter generator model. -/
def natSeed : ℤ → ℕ := fun s => s.toNat + 1

end DatasetMapping

namespace DatasetMapping

/-- Claim C3, counterexample: with weights `{"A": 1}` and total `-1` the
code performs no validation and returns the allocation `{"A": -1}`; it does
not fail with `InvalidInputError` (no such error exists in the code). -/
theorem allocate_negative_total_no_error :
    allocateCore [("A", 1)] (-1) = Except.ok [("A", -1)] := by
  norm_num [allocateCore, totalPopulation, baseAllocation, remainingCount, sumCounts]

/-- Claim C3 (amended): `allocate_hospitals_proportional` validates
nothing.  Its only failure is the unhandled `ZeroDivisionError` when the
population sum is zero and at least one region exists; in every other case
— including a negative `total` and a negative population sum — it returns
a result without error. -/
theorem allocate_isOk_iff (regions : List (String × ℚ)) (total : ℤ) :
    (allocateCore regions total).isOk = true ↔
      (regions = [] ∨ totalPopulation regions ≠ 0) := by
  unfold allocateCore
  by_cases h : regions ≠ [] ∧ totalPopulation regions = 0
  · simp only [if_pos h]
    constructor
    · intro hok; cases hok
    · intro hcase
      rcases h with ⟨hne, hzero⟩
      rcases hcase with hnil | hnz
      · exact absurd hnil hne
      · exact absurd hzero hnz
  · simp only [if_neg h]
    constructor
    · intro _
      by_cases hnil : regions = []
      · exact Or.inl hnil
      · refine Or.inr ?_
        intro hzero
        exact h ⟨hnil, hzero⟩
    · intro _
      by_cases hrem : 0 < remainingCount regions total
      · simp [if_pos hrem, Except.isOk, Except.toBool]
      · simp [if_neg hrem, Except.isOk, Except.toBool]

/-- Claim C3 (amended), witness: weights `{"A": 1}` with total `-1` fall in
the no-error case. -/
theorem allocate_isOk_iff_witness :
    (allocateCore [("A", 1)] (-1)).isOk = true :=
  (allocate_isOk_iff [("A", 1)] (-1)).mpr (by norm_num [totalPopulation])

/-- Claim C5: the allocation returned by
`allocate_hospitals_proportional` is a pure function of
`(weights, total)`: the seed argument and the incoming generator state
never perturb the apportionment arithmetic. -/
theorem allocate_seed_independent (σ : Type) (seedFn : ℤ → σ)
    (regions : List (String × ℚ)) (total : ℤ)
    (seed1 seed2 : Option ℤ) (st1 st2 : σ) :
    (allocateFull σ seedFn regions total seed1 st1).1 =
      (allocateFull σ seedFn regions total seed2 st2).1 := rfl

/-- Claim C8: two calls of `assign_hospitals_to_regions` with identical
`(identifiers, allocation, seed)` and a non-`None` seed produce identical
mappings, whatever generator state each call starts from: `random.seed`
resets the generator to the same state in both calls and the shuffle is a
deterministic function of that state. -/
theorem assign_seed_reproducible (σ : Type) (seedFn : ℤ → σ)
    (shuffleFn : σ → List String → List String × σ)
    (hospitals : List String) (allocation : List (String × ℤ))
    (s : ℤ) (st1 st2 : σ) :
    (assignFull σ seedFn shuffleFn hospitals allocation (some s) st1).1 =
      (assignFull σ seedFn shuffleFn hospitals allocation (some s) st2).1 := rfl

/-- Claim C6, counterexample: with 5 identifiers and an allocation summing
to 4, `assign_hospitals_to_regions` raises no `SizeMismatchError` (no such
error exists in the code) and returns a partial mapping of 4 entries,
silently dropping one identifier.  Evaluated with the concrete
`ℕ`-counter generator model whose shuffle reverses the list. -/
theorem assign_size_mismatch_no_error :
    (assignFull ℕ natSeed revShuffle ["h1", "h2", "h3", "h4", "h5"]
      [("A", 4)] (some 42) 0).1 =
      [("h5", "A"), ("h4", "A"), ("h3", "A"), ("h2", "A")] := by decide

/-- Claim C9, counterexample: the two functions are not side-effect-free.
Evaluated with the concrete `ℕ`-counter generator model:
`allocate_hospitals_proportional` with a seed overwrites the process-wide
generator state (final state differs from the initial state `0`), and
`assign_hospitals_to_regions` mutates its identifiers-list argument in
place via `random.shuffle` (final content differs from `["a", "b"]`). -/
theorem allocate_assign_mutate_state :
    (allocateFull ℕ natSeed [("A", 1)] 1 (some 42) 0).2 ≠ 0 ∧
      (assignFull ℕ natSeed revShuffle ["a", "b"] [("A", 2)] none 0).2.1 ≠
        ["a", "b"] := by decide

/-- Claim C9 (amended): each call's effects are limited to the generator
and the in-place shuffle.  `allocate_hospitals_proportional` with
`seed=None` leaves the generator untouched, and the in-place shuffle of
`assign_hospitals_to_regions` only permutes the identifiers list (its final
content is a permutation of the caller's list). -/
theorem effects_limited_to_rng_and_shuffle :
    (∀ (σ : Type) (seedFn : ℤ → σ) (regions : List (String × ℚ)) (total : ℤ)
      (st : σ), (allocateFull σ seedFn regions total none st).2 = st) ∧
    (∀ (σ : Type) (seedFn : ℤ → σ)
      (shuffleFn : σ → List String → List String × σ),
      (∀ st l, ((shuffleFn st l).1).Perm l) →
      ∀ (hospitals : List String) (allocation : List (String × ℤ))
        (seed : Option ℤ) (st : σ),
        ((assignFull σ seedFn shuffleFn hospitals allocation seed st).2.1).Perm
          hospitals) :=
  ⟨fun _ _ _ _ _ => rfl, fun _ _ _ hsh _ _ _ _ => hsh _ _⟩

/-- Claim C9 (amended), witness: with the concrete `ℕ`-counter generator
model, an unseeded allocate call leaves the state `5` untouched and the
list content returned by assign is a permutation of `["a", "b"]`. -/
theorem effects_limited_to_rng_and_shuffle_witness :
    (allocateFull ℕ natSeed [("A", 1)] 1 none 5).2 = 5 ∧
      ((assignFull ℕ natSeed revShuffle ["a", "b"] [] none 0).2.1).Perm
        ["a", "b"] :=
  ⟨effects_limited_to_rng_and_shuffle.1 ℕ natSeed [("A", 1)] 1 5,
    effects_limited_to_rng_and_shuffle.2 ℕ natSeed revShuffle
      (fun _ l => l.reverse_perm) ["a", "b"] [] none 0⟩

/-- Python slices `l[a:b]` with `0 ≤ a` and `b = a + k`, `0 ≤ k`, are the
`k`-element window starting at `a`, clamped to the list. -/
theorem pySlice_eq_drop_take (l : List String) (a k : ℤ) (ha : 0 ≤ a)
    (hk : 0 ≤ k) :
    pySlice l a (a + k) = (l.drop a.toNat).take k.toNat := by
  have h0 : ¬ a < 0 := not_lt.mpr ha
  have h1 : ¬ a + k < 0 := by omega
  simp only [pySlice, if_neg h0, if_neg h1]
  rcases le_total a (l.length : ℤ) with hA | hA
  · rw [min_eq_left hA]
    rcases le_total (a + k) (l.length : ℤ) with hB | hB
    · rw [min_eq_left hB, List.drop_take]
      congr 1
      omega
    · rw [min_eq_right hB, List.drop_take]
      rw [List.take_eq_take]
      simp only [List.length_drop]
      omega
  · rw [min_eq_right hA]
    have hB : (l.length : ℤ) ≤ a + k := by omega
    rw [min_eq_right hB]
    have hlen : ((l.length : ℤ)).toNat = l.length := by omega
    rw [hlen, List.take_length, List.drop_length]
    rw [List.drop_eq_nil_of_le (by omega), List.take_nil]

/-- Casting the clamped count sum back to `ℤ` recovers
`sum(allocation.values())` when all counts are non-negative. -/
theorem sumCountsNat_cast (allocation : List (String × ℤ))
    (h : ∀ p ∈ allocation, 0 ≤ p.2) :
    (sumCountsNat allocation : ℤ) = sumCounts allocation := by
  induction allocation with
  | nil => rfl
  | cons p t ih =>
    have hp : 0 ≤ p.2 := h p (by simp)
    have ht : (((t.map fun p => p.2.toNat).sum : ℕ) : ℤ) =
        (t.map Prod.snd).sum :=
      ih fun q hq => h q (by simp [hq])
    simp only [sumCountsNat, sumCounts, List.map_cons, List.sum_cons]
    rw [Nat.cast_add, Int.toNat_of_nonneg hp, ht]

/-- The hospitals written by the assignment loop, in order: the contiguous
window of the (shuffled) hospital list starting at `current_index` of
length the sum of the counts. -/
theorem assignGo_keys (s : List String) (alloc : List (String × ℤ)) :
    ∀ (c : ℤ), 0 ≤ c → (∀ p ∈ alloc, 0 ≤ p.2) →
      (assignGo s alloc c).map Prod.fst =
        (s.drop c.toNat).take (sumCountsNat alloc) := by
  induction alloc with
  | nil => intro c _ _; simp [assignGo, sumCountsNat]
  | cons p rest ih =>
    intro c hc hnn
    obtain ⟨r, k⟩ := p
    have hk : 0 ≤ k := hnn (r, k) (by simp)
    have hrest : ∀ q ∈ rest, 0 ≤ q.2 := fun q hq => hnn q (by simp [hq])
    simp only [assignGo, List.map_append, List.map_map]
    rw [pySlice_eq_drop_take s c k hc hk, ih (c + k) (by omega) hrest]
    have hcomp : (Prod.fst ∘ fun h : String => ((h, r) : String × String)) =
        id := rfl
    rw [hcomp, List.map_id]
    have htn : (c + k).toNat = c.toNat + k.toNat := by omega
    rw [htn, ← List.drop_drop]
    have hsum : sumCountsNat ((r, k) :: rest) = k.toNat + sumCountsNat rest := by
      simp [sumCountsNat]
    rw [hsum, List.take_add]

/-- Every region label written by the assignment loop comes from the
allocation. -/
theorem assignGo_values_sub (s : List String) (alloc : List (String × ℤ)) :
    ∀ (c : ℤ) (v : String), v ∈ (assignGo s alloc c).map Prod.snd →
      v ∈ alloc.map Prod.fst := by
  induction alloc with
  | nil => intro c v hv; simp [assignGo] at hv
  | cons p rest ih =>
    intro c v hv
    obtain ⟨r, k⟩ := p
    simp only [assignGo, List.map_append, List.map_map, List.mem_append] at hv
    simp only [List.map_cons]
    rcases hv with hv | hv
    · have hvr : v = r := by
        obtain ⟨a, _, ha⟩ := List.mem_map.mp hv
        simpa using ha.symm
      rw [hvr]
      exact List.mem_cons_self _ _
    · exact List.mem_cons_of_mem _ (ih (c + k) v hv)

/-- How many hospitals a given region receives from the assignment loop:
the part of its requested count that still fits in the list after all
earlier regions consumed their counts. -/
theorem assignGo_count (s : List String) (r : String) (k : ℤ)
    (l2 : List (String × ℤ)) :
    ∀ (l1 : List (String × ℤ)) (c : ℤ), 0 ≤ c →
      (∀ p ∈ l1 ++ (r, k) :: l2, 0 ≤ p.2) →
      r ∉ l1.map Prod.fst → r ∉ l2.map Prod.fst →
      ((assignGo s (l1 ++ (r, k) :: l2) c).map Prod.snd).count r =
        min k.toNat (s.length - (c.toNat + sumCountsNat l1)) := by
  intro l1
  induction l1 with
  | nil =>
    intro c hc hnn _ hr2
    have hk : 0 ≤ k := hnn (r, k) (by simp)
    simp only [List.nil_append, assignGo, List.map_append, List.map_map,
      List.count_append]
    have hfst : (Prod.snd ∘ fun h : String => ((h, r) : String × String)) =
        fun _ => r := rfl
    rw [pySlice_eq_drop_take s c k hc hk, hfst, List.map_const']
    rw [List.count_replicate_self]
    have hz : ((assignGo s l2 (c + k)).map Prod.snd).count r = 0 := by
      rw [List.count_eq_zero]
      intro hmem
      exact hr2 (assignGo_values_sub s l2 (c + k) r hmem)
    rw [hz]
    simp only [List.length_take, List.length_drop, sumCountsNat, List.map_nil,
      List.sum_nil]
    omega
  | cons p t ih =>
    intro c hc hnn hr1 hr2
    obtain ⟨r0, k0⟩ := p
    have hk0 : 0 ≤ k0 := hnn (r0, k0) (by simp)
    have hrne : r ≠ r0 := by
      intro h
      exact hr1 (by simp [h])
    have hr1t : r ∉ t.map Prod.fst := by
      intro h
      exact hr1 (by simp [h])
    have hnnt : ∀ p ∈ t ++ (r, k) :: l2, 0 ≤ p.2 := fun q hq =>
      hnn q (by simp at hq ⊢; tauto)
    simp only [List.cons_append, assignGo, List.map_append, List.map_map,
      List.count_append]
    have hfst2 : (Prod.snd ∘ fun h : String => ((h, r0) : String × String)) =
        fun _ => r0 := rfl
    rw [hfst2, List.map_const']
    have hz : (List.replicate (pySlice s c (c + k0)).length r0).count r = 0 := by
      simp [List.count_replicate, hrne, Ne.symm hrne]
    simp only [List.append_eq]
    rw [hz, ih (c + k0) (by omega) hnnt hr1t hr2]
    have harith : (c + k0).toNat + sumCountsNat t =
        c.toNat + sumCountsNat ((r0, k0) :: t) := by
      simp only [sumCountsNat, List.map_cons, List.sum_cons]
      omega
    rw [harith]
    omega

/-- Labels on either side of a duplicate-free label column avoid the middle
label. -/
theorem notMem_sides_of_nodup (l1 l2 : List (String × ℤ)) (r : String)
    (k : ℤ) (hnd : ((l1 ++ (r, k) :: l2).map Prod.fst).Nodup) :
    r ∉ l1.map Prod.fst ∧ r ∉ l2.map Prod.fst := by
  rw [List.map_append, List.map_cons, List.nodup_append] at hnd
  obtain ⟨_, hcons, hdisj⟩ := hnd
  constructor
  · intro hr
    exact hdisj hr (by simp)
  · intro hr
    exact (List.nodup_cons.mp hcons).1 hr

/-- Claim C7: for distinct identifiers and a non-negative allocation whose
counts sum to the number of identifiers, the mapping returned by
`assign_hospitals_to_regions` has every identifier as a key exactly once
(its key column is a permutation of the identifiers), and each region
label occurs among the values exactly its allocated count of times. -/
theorem assign_covers_once_and_matches (σ : Type) (seedFn : ℤ → σ)
    (shuffleFn : σ → List String → List String × σ)
    (hsh : ∀ st l, ((shuffleFn st l).1).Perm l)
    (hospitals : List String) (allocation : List (String × ℤ))
    (seed : Option ℤ) (st : σ)
    (hids : hospitals.Nodup)
    (hnn : ∀ p ∈ allocation, 0 ≤ p.2)
    (hlabels : (allocation.map Prod.fst).Nodup)
    (hsum : sumCounts allocation = hospitals.length) :
    (((assignFull σ seedFn shuffleFn hospitals allocation seed st).1).map
        Prod.fst).Perm hospitals ∧
    ∀ r k, (r, k) ∈ allocation →
      ((((assignFull σ seedFn shuffleFn hospitals allocation seed st).1).map
          Prod.snd).count r : ℤ) = k := by
  set st1 := match seed with
    | some s => seedFn s
    | none => st with hst1
  have hperm : ((shuffleFn st1 hospitals).1).Perm hospitals := hsh st1 hospitals
  set sh := (shuffleFn st1 hospitals).1 with hsh1
  have hlen : sh.length = hospitals.length := hperm.length_eq
  have hm : (assignFull σ seedFn shuffleFn hospitals allocation seed st).1 =
      assignGo sh allocation 0 := rfl
  have hsnat : (sumCountsNat allocation : ℤ) = sumCounts allocation :=
    sumCountsNat_cast allocation hnn
  have hkeys : ((assignGo sh allocation 0).map Prod.fst) = sh := by
    rw [assignGo_keys sh allocation 0 le_rfl hnn]
    simp only [Int.toNat_zero, List.drop_zero]
    apply List.take_of_length_le
    omega
  constructor
  · rw [hm, hkeys]
    exact hperm
  · intro r k hmem
    obtain ⟨l1, l2, hdecomp⟩ := List.append_of_mem hmem
    subst hdecomp
    obtain ⟨hr1, hr2⟩ := notMem_sides_of_nodup l1 l2 r k hlabels
    rw [hm, assignGo_count sh r k l2 l1 0 le_rfl hnn hr1 hr2]
    have hk : 0 ≤ k := hnn (r, k) (by simp)
    have hsplit : sumCountsNat (l1 ++ (r, k) :: l2) =
        sumCountsNat l1 + k.toNat + sumCountsNat l2 := by
      simp only [sumCountsNat, List.map_append, List.map_cons,
        List.sum_append, List.sum_cons]
      omega
    rw [hsplit] at hsnat
    omega

/-- Claim C7, witness: identifiers `["h1", "h2", "h3"]` with allocation
`{A: 2, B: 1}` under the concrete `ℕ`-counter generator model. -/
theorem assign_covers_once_and_matches_witness :
    (((assignFull ℕ natSeed revShuffle ["h1", "h2", "h3"]
        [("A", 2), ("B", 1)] (some 7) 0).1).map Prod.fst).Perm
      ["h1", "h2", "h3"] ∧
    ∀ r k, (r, k) ∈ [(("A" : String), (2 : ℤ)), ("B", 1)] →
      ((((assignFull ℕ natSeed revShuffle ["h1", "h2", "h3"]
          [("A", 2), ("B", 1)] (some 7) 0).1).map Prod.snd).count r : ℤ) = k :=
  assign_covers_once_and_matches ℕ natSeed revShuffle
    (fun _ l => l.reverse_perm) ["h1", "h2", "h3"] [("A", 2), ("B", 1)]
    (some 7) 0 (by decide) (by decide) (by decide) (by decide)

/-- Claim C10: when the allocation's non-negative counts sum to more than
the number of identifiers, `assign_hospitals_to_regions` raises nothing
and returns a mapping whose keys are exactly the available identifiers;
each region receives the part of its count that fits after the regions
before it in the allocation's iteration order consumed theirs — regions
beyond the point of exhaustion receive fewer, possibly zero. -/
theorem assign_overallocation_graceful (σ : Type) (seedFn : ℤ → σ)
    (shuffleFn : σ → List String → List String × σ)
    (hsh : ∀ st l, ((shuffleFn st l).1).Perm l)
    (hospitals : List String) (allocation : List (String × ℤ))
    (seed : Option ℤ) (st : σ)
    (hnn : ∀ p ∈ allocation, 0 ≤ p.2)
    (hlabels : (allocation.map Prod.fst).Nodup)
    (hsum : (hospitals.length : ℤ) < sumCounts allocation) :
    (((assignFull σ seedFn shuffleFn hospitals allocation seed st).1).map
        Prod.fst).Perm hospitals ∧
    ∀ l1 r k l2, allocation = l1 ++ (r, k) :: l2 →
      (((assignFull σ seedFn shuffleFn hospitals allocation seed st).1).map
          Prod.snd).count r =
        min k.toNat (hospitals.length - sumCountsNat l1) := by
  set st1 := match seed with
    | some s => seedFn s
    | none => st with hst1
  have hperm : ((shuffleFn st1 hospitals).1).Perm hospitals := hsh st1 hospitals
  set sh := (shuffleFn st1 hospitals).1 with hsh1
  have hlen : sh.length = hospitals.length := hperm.length_eq
  have hm : (assignFull σ seedFn shuffleFn hospitals allocation seed st).1 =
      assignGo sh allocation 0 := rfl
  have hsnat : (sumCountsNat allocation : ℤ) = sumCounts allocation :=
    sumCountsNat_cast allocation hnn
  constructor
  · rw [hm, assignGo_keys sh allocation 0 le_rfl hnn]
    simp only [Int.toNat_zero, List.drop_zero]
    rw [List.take_of_length_le (by omega)]
    exact hperm
  · intro l1 r k l2 hdecomp
    subst hdecomp
    obtain ⟨hr1, hr2⟩ := notMem_sides_of_nodup l1 l2 r k hlabels
    rw [hm, assignGo_count sh r k l2 l1 0 le_rfl hnn hr1 hr2]
    simp only [Int.toNat_zero, Nat.zero_add, hlen]

/-- Claim C10, witness: identifiers `["a", "b"]` with allocation
`{A: 1, B: 3}` summing to 4 > 2: region A receives 1, region B only 1. -/
theorem assign_overallocation_graceful_witness :
    (((assignFull ℕ natSeed revShuffle ["a", "b"] [("A", 1), ("B", 3)]
        (some 3) 0).1).map Prod.fst).Perm ["a", "b"] ∧
    ∀ l1 r k l2, [(("A" : String), (1 : ℤ)), ("B", 3)] = l1 ++ (r, k) :: l2 →
      (((assignFull ℕ natSeed revShuffle ["a", "b"] [("A", 1), ("B", 3)]
          (some 3) 0).1).map Prod.snd).count r =
        min k.toNat (["a", "b"].length - sumCountsNat l1) :=
  assign_overallocation_graceful ℕ natSeed revShuffle
    (fun _ l => l.reverse_perm) ["a", "b"] [("A", 1), ("B", 3)] (some 3) 0
    (by decide) (by decide) (by decide)

/-- Claim C6 (amended): `assign_hospitals_to_regions` checks no sizes and
raises nothing: when the identifiers outnumber the allocation's
non-negative count sum, it returns a mapping with exactly that many
entries drawn from the identifiers, silently leaving the surplus
identifiers unmapped. -/
theorem assign_mismatch_silent (σ : Type) (seedFn : ℤ → σ)
    (shuffleFn : σ → List String → List String × σ)
    (hsh : ∀ st l, ((shuffleFn st l).1).Perm l)
    (hospitals : List String) (allocation : List (String × ℤ))
    (seed : Option ℤ) (st : σ)
    (hnn : ∀ p ∈ allocation, 0 ≤ p.2)
    (hsum : sumCounts allocation < (hospitals.length : ℤ)) :
    ((assignFull σ seedFn shuffleFn hospitals allocation seed st).1).length =
      (sumCounts allocation).toNat ∧
    ∀ p ∈ (assignFull σ seedFn shuffleFn hospitals allocation seed st).1,
      p.1 ∈ hospitals := by
  set st1 := match seed with
    | some s => seedFn s
    | none => st with hst1
  have hperm : ((shuffleFn st1 hospitals).1).Perm hospitals := hsh st1 hospitals
  set sh := (shuffleFn st1 hospitals).1 with hsh1
  have hlen : sh.length = hospitals.length := hperm.length_eq
  have hm : (assignFull σ seedFn shuffleFn hospitals allocation seed st).1 =
      assignGo sh allocation 0 := rfl
  have hsnat : (sumCountsNat allocation : ℤ) = sumCounts allocation :=
    sumCountsNat_cast allocation hnn
  have hkeys : ((assignGo sh allocation 0).map Prod.fst) =
      sh.take (sumCountsNat allocation) := by
    rw [assignGo_keys sh allocation 0 le_rfl hnn]
    simp
  constructor
  · have : ((assignGo sh allocation 0).map Prod.fst).length =
        (sumCountsNat allocation) := by
      rw [hkeys, List.length_take]
      omega
    rw [List.length_map] at this
    rw [hm, this]
    omega
  · intro p hp
    have hmem : p.1 ∈ (assignGo sh allocation 0).map Prod.fst :=
      List.mem_map.mpr ⟨p, hm ▸ hp, rfl⟩
    rw [hkeys] at hmem
    exact hperm.mem_iff.mp (List.mem_of_mem_take hmem)

/-- Claim C6 (amended), witness: 5 identifiers against an allocation
summing to 4: the mapping has 4 entries, all drawn from the identifiers. -/
theorem assign_mismatch_silent_witness :
    ((assignFull ℕ natSeed revShuffle ["h1", "h2", "h3", "h4", "h5"]
        [("A", 4)] (some 42) 0).1).length = ((4 : ℤ)).toNat ∧
    ∀ p ∈ (assignFull ℕ natSeed revShuffle ["h1", "h2", "h3", "h4", "h5"]
        [("A", 4)] (some 42) 0).1,
      p.1 ∈ ["h1", "h2", "h3", "h4", "h5"] := by
  have h := assign_mismatch_silent ℕ natSeed revShuffle
    (fun _ l => l.reverse_perm) ["h1", "h2", "h3", "h4", "h5"] [("A", 4)]
    (some 42) 0 (by decide) (by decide)
  exact ⟨h.1, h.2⟩

/-- Splitting a sum over a pointwise sum of integer-valued functions. -/
theorem sum_map_add (l : List (String × ℤ)) (f g : (String × ℤ) → ℤ) :
    (l.map fun p => f p + g p).sum = (l.map f).sum + (l.map g).sum := by
  induction l with
  | nil => simp
  | cons a t ih => simp only [List.map_cons, List.sum_cons, ih]; ring

/-- Splitting a sum over a pointwise difference of rational-valued
functions. -/
theorem sum_map_sub (l : List (String × ℚ)) (f g : (String × ℚ) → ℚ) :
    (l.map fun p => f p - g p).sum = (l.map f).sum - (l.map g).sum := by
  induction l with
  | nil => simp
  | cons a t ih => simp only [List.map_cons, List.sum_cons, ih]; ring

/-- Factoring a constant out of a sum. -/
theorem sum_map_mul_const (l : List ℚ) (c : ℚ) :
    (l.map fun x => x * c).sum = l.sum * c := by
  induction l with
  | nil => simp
  | cons a t ih => simp only [List.map_cons, List.sum_cons, ih]; ring

/-- A sum of indicator values counts the satisfying elements. -/
theorem sum_ite_eq_countP (l : List (String × ℤ)) (p : (String × ℤ) → Prop)
    [DecidablePred p] :
    (l.map fun x => if p x then (1 : ℤ) else 0).sum =
      l.countP fun x => decide (p x) := by
  induction l with
  | nil => simp
  | cons a t ih =>
    by_cases h : p a
    · simp only [List.map_cons, List.sum_cons, if_pos h, ih,
        List.countP_cons, decide_eq_true_eq, h]
      push_cast
      ring
    · simp [h, ih, List.countP_cons]

/-- Counting membership in a duplicate-free subset `s` of a duplicate-free
list `l` yields the size of `s`. -/
theorem countP_mem_of_nodup (l s : List String) (hl : l.Nodup) (hs : s.Nodup)
    (hsub : ∀ x ∈ s, x ∈ l) :
    (l.countP fun x => decide (x ∈ s)) = s.length := by
  rw [List.countP_eq_length_filter]
  have hperm : (l.filter fun x => decide (x ∈ s)).Perm s := by
    rw [List.perm_ext_iff_of_nodup (hl.filter _) hs]
    intro a
    simp only [List.mem_filter, decide_eq_true_eq]
    exact ⟨fun h => h.2, fun h => ⟨hsub a h, h⟩⟩
  exact hperm.length_eq

/-- A list of rationals all below `1` sums to less than its length. -/
theorem sum_lt_length (l : List ℚ) (hne : l ≠ []) (h : ∀ x ∈ l, x < 1) :
    l.sum < l.length := by
  induction l with
  | nil => exact absurd rfl hne
  | cons a t ih =>
    have ha := h a (by simp)
    rcases eq_or_ne t [] with rfl | hne2
    · simpa using ha
    · have ht := ih hne2 fun x hx => h x (by simp [hx])
      simp only [List.sum_cons, List.length_cons]
      push_cast
      linarith

/-- A list of rationals all below `1` sums to at most its count of positive
elements. -/
theorem sum_le_countP (l : List ℚ) (h1 : ∀ x ∈ l, x < 1) :
    l.sum ≤ (l.countP fun x => decide (0 < x) : ℕ) := by
  induction l with
  | nil => simp
  | cons a t ih =>
    have ha := h1 a (by simp)
    have ht := ih fun x hx => h1 x (by simp [hx])
    rw [List.sum_cons, List.countP_cons]
    by_cases hpa : 0 < a
    · rw [if_pos (by simpa using hpa)]
      push_cast
      linarith
    · rw [if_neg (by simpa using hpa), Nat.add_zero]
      push_neg at hpa
      linarith

/-- A positive sum of rationals all below `1` is strictly less than the
count of positive elements. -/
theorem sum_lt_countP (l : List ℚ) (h1 : ∀ x ∈ l, x < 1) (hpos : 0 < l.sum) :
    l.sum < (l.countP fun x => decide (0 < x) : ℕ) := by
  induction l with
  | nil => simp at hpos
  | cons a t ih =>
    have ha := h1 a (by simp)
    have hle := sum_le_countP t fun x hx => h1 x (by simp [hx])
    rw [List.sum_cons, List.countP_cons]
    rw [List.sum_cons] at hpos
    by_cases hpa : 0 < a
    · rw [if_pos (by simpa using hpa)]
      push_cast
      linarith
    · rw [if_neg (by simpa using hpa), Nat.add_zero]
      push_neg at hpa
      have htpos : 0 < t.sum := by linarith
      have := ih (fun x hx => h1 x (by simp [hx])) htpos
      linarith

/-- The population sum of a nonempty region list with positive populations
is positive. -/
theorem totalPopulation_pos (regions : List (String × ℚ))
    (hne : regions ≠ []) (hpos : ∀ p ∈ regions, 0 < p.2) :
    0 < totalPopulation regions := by
  apply List.sum_pos
  · intro x hx
    obtain ⟨p, hp, hpx⟩ := List.mem_map.mp hx
    exact hpx ▸ hpos p hp
  · simpa using hne

/-- Key column of the floor allocation. -/
theorem baseAllocation_fst (regions : List (String × ℚ)) (total : ℤ) :
    (baseAllocation regions total).map Prod.fst = regions.map Prod.fst := by
  rw [baseAllocation, List.map_map]
  rfl

/-- Count column of the floor allocation. -/
theorem baseAllocation_snd (regions : List (String × ℚ)) (total : ℤ) :
    (baseAllocation regions total).map Prod.snd =
      regions.map fun p =>
        ⌊p.2 / totalPopulation regions * (total : ℚ)⌋ := by
  rw [baseAllocation, List.map_map]
  rfl

/-- Key column of the fractional remainders. -/
theorem fractionalAllocation_fst (regions : List (String × ℚ)) (total : ℤ) :
    (fractionalAllocation regions total).map Prod.fst =
      regions.map Prod.fst := by
  rw [fractionalAllocation, List.map_map]
  rfl

/-- Remainder column of the fractional remainders. -/
theorem fractionalAllocation_snd (regions : List (String × ℚ)) (total : ℤ) :
    (fractionalAllocation regions total).map Prod.snd =
      regions.map fun p =>
        p.2 / totalPopulation regions * (total : ℚ) -
          (⌊p.2 / totalPopulation regions * (total : ℚ)⌋ : ℚ) := by
  rw [fractionalAllocation, List.map_map]
  rfl

/-- The exact proportional shares sum to the total (in exact rational
arithmetic, the incidental floating-point concern aside). -/
theorem shares_sum (regions : List (String × ℚ)) (total : ℤ)
    (hW : totalPopulation regions ≠ 0) :
    (regions.map fun p =>
      p.2 / totalPopulation regions * (total : ℚ)).sum = (total : ℚ) := by
  have hfun : (fun p : String × ℚ =>
      p.2 / totalPopulation regions * (total : ℚ)) =
      fun p : String × ℚ =>
        p.2 * ((total : ℚ) / totalPopulation regions) := by
    funext p
    rw [div_mul_eq_mul_div, mul_div_assoc]
  rw [hfun]
  have hmm : regions.map (fun p : String × ℚ =>
      p.2 * ((total : ℚ) / totalPopulation regions)) =
      (regions.map Prod.snd).map fun x =>
        x * ((total : ℚ) / totalPopulation regions) := by
    rw [List.map_map]
    rfl
  rw [hmm, sum_map_mul_const]
  show totalPopulation regions * ((total : ℚ) / totalPopulation regions) =
    (total : ℚ)
  rw [mul_comm]
  exact div_mul_cancel₀ (total : ℚ) hW

/-- The leftover `remaining` equals the sum of the fractional remainders. -/
theorem remaining_cast (regions : List (String × ℚ)) (total : ℤ)
    (hW : totalPopulation regions ≠ 0) :
    ((remainingCount regions total : ℤ) : ℚ) =
      ((fractionalAllocation regions total).map Prod.snd).sum := by
  rw [fractionalAllocation_snd]
  have hsub : (regions.map fun p =>
      p.2 / totalPopulation regions * (total : ℚ) -
        (⌊p.2 / totalPopulation regions * (total : ℚ)⌋ : ℚ)).sum =
      (regions.map fun p =>
        p.2 / totalPopulation regions * (total : ℚ)).sum -
      (regions.map fun p =>
        (⌊p.2 / totalPopulation regions * (total : ℚ)⌋ : ℚ)).sum :=
    sum_map_sub regions _ _
  rw [hsub, shares_sum regions total hW]
  have hcast : (regions.map fun p =>
      (⌊p.2 / totalPopulation regions * (total : ℚ)⌋ : ℚ)).sum =
      ((sumCounts (baseAllocation regions total) : ℤ) : ℚ) := by
    rw [sumCounts, baseAllocation_snd, Int.cast_list_sum, List.map_map]
    rfl
  rw [hcast, remainingCount]
  push_cast
  ring

/-- Each fractional remainder lies in `[0, 1)`. -/
theorem frac_snd_bounds (regions : List (String × ℚ)) (total : ℤ) :
    ∀ x ∈ (fractionalAllocation regions total).map Prod.snd,
      0 ≤ x ∧ x < 1 := by
  intro x hx
  rw [fractionalAllocation_snd] at hx
  obtain ⟨p, _, hpx⟩ := List.mem_map.mp hx
  have hfr : x = Int.fract (p.2 / totalPopulation regions * (total : ℚ)) :=
    hpx.symm
  rw [hfr]
  exact ⟨Int.fract_nonneg _, Int.fract_lt_one _⟩

/-- `remaining` is non-negative. -/
theorem remaining_nonneg (regions : List (String × ℚ)) (total : ℤ)
    (hW : totalPopulation regions ≠ 0) :
    0 ≤ remainingCount regions total := by
  have h1 := remaining_cast regions total hW
  have h2 : 0 ≤ ((fractionalAllocation regions total).map Prod.snd).sum :=
    List.sum_nonneg fun x hx => (frac_snd_bounds regions total x hx).1
  rw [← h1] at h2
  exact_mod_cast h2

/-- `remaining` is below the number of regions. -/
theorem remaining_lt_length (regions : List (String × ℚ)) (total : ℤ)
    (hne : regions ≠ []) (hW : totalPopulation regions ≠ 0) :
    remainingCount regions total < (regions.length : ℤ) := by
  have h1 := remaining_cast regions total hW
  have hne2 : (fractionalAllocation regions total).map Prod.snd ≠ [] := by
    simp [fractionalAllocation, hne]
  have h2 := sum_lt_length _ hne2
    fun x hx => (frac_snd_bounds regions total x hx).2
  rw [← h1] at h2
  have hlen : ((fractionalAllocation regions total).map Prod.snd).length =
      regions.length := by
    simp [fractionalAllocation]
  rw [hlen] at h2
  exact_mod_cast h2

/-- Claim C1, counterexample: the empty weights mapping (vacuously all
positive) with total `1` returns the empty allocation without error, whose
counts sum to `0 ≠ 1` — the loop body never runs, so no division occurs. -/
theorem allocate_empty_sum_zero :
    allocateCore [] 1 = Except.ok [] ∧ sumCounts [] ≠ 1 := by
  constructor
  · norm_num [allocateCore, remainingCount, baseAllocation, sumCounts,
      totalPopulation, winnersList, fractionalAllocation]
  · norm_num [sumCounts]

/-- Claim C1 (amended): for every nonempty weights mapping with all
weights positive and every `total ≥ 0`, the allocation returned by
`allocate_hospitals_proportional` has integer counts summing exactly to
`total` (arithmetic modelled exactly over `ℚ`). -/
theorem allocate_sum_eq_total (regions : List (String × ℚ)) (total : ℤ)
    (hne : regions ≠ []) (hpos : ∀ p ∈ regions, 0 < p.2)
    (hnodup : (regions.map Prod.fst).Nodup) (htotal : 0 ≤ total) :
    ∀ l, allocateCore regions total = Except.ok l → sumCounts l = total := by
  intro l hl
  have hW : 0 < totalPopulation regions := totalPopulation_pos regions hne hpos
  have hWne : totalPopulation regions ≠ 0 := ne_of_gt hW
  have hcond : ¬(regions ≠ [] ∧ totalPopulation regions = 0) :=
    fun h => hWne h.2
  rw [allocateCore, if_neg hcond] at hl
  by_cases hrem : 0 < remainingCount regions total
  · rw [if_pos hrem] at hl
    injection hl with hl2
    subst hl2
    have hsplit : sumCounts ((baseAllocation regions total).map fun p =>
        (p.1, p.2 + if p.1 ∈ winnersList regions total then 1 else 0)) =
        sumCounts (baseAllocation regions total) +
          ((baseAllocation regions total).map fun p =>
            if p.1 ∈ winnersList regions total then (1 : ℤ) else 0).sum := by
      rw [sumCounts, List.map_map]
      have hcomp : (Prod.snd ∘ fun p : String × ℤ =>
          (p.1, p.2 + if p.1 ∈ winnersList regions total then 1 else 0)) =
          fun p : String × ℤ =>
            p.2 + if p.1 ∈ winnersList regions total then 1 else 0 := rfl
      rw [hcomp, sum_map_add]
      rfl
    rw [hsplit]
    have hcount : ((baseAllocation regions total).map fun p =>
        if p.1 ∈ winnersList regions total then (1 : ℤ) else 0).sum =
        (winnersList regions total).length := by
      rw [sum_ite_eq_countP]
      have hmapped : ((baseAllocation regions total).countP fun p =>
          decide (p.1 ∈ winnersList regions total)) =
          (((baseAllocation regions total).map Prod.fst).countP fun x =>
            decide (x ∈ winnersList regions total)) := by
        rw [List.countP_map]
        rfl
      rw [hmapped, baseAllocation_fst]
      have hsortperm : ((List.insertionSort fracGe
          (fractionalAllocation regions total)).map Prod.fst).Perm
          (regions.map Prod.fst) := by
        rw [← fractionalAllocation_fst regions total]
        exact (List.perm_insertionSort fracGe _).map Prod.fst
      have hwsub : ∀ x ∈ winnersList regions total,
          x ∈ regions.map Prod.fst := by
        intro x hx
        rw [winnersList, List.map_take] at hx
        exact hsortperm.mem_iff.mp (List.mem_of_mem_take hx)
      have hwnodup : (winnersList regions total).Nodup := by
        rw [winnersList, List.map_take]
        exact List.Sublist.nodup (List.take_sublist _ _)
          (hsortperm.nodup_iff.mpr hnodup)
      congr 1
      exact countP_mem_of_nodup _ _ hnodup hwnodup hwsub
    rw [hcount]
    have hwlen : (winnersList regions total).length =
        (remainingCount regions total).toNat := by
      rw [winnersList, List.length_map, List.length_take]
      have hslen : (List.insertionSort fracGe
          (fractionalAllocation regions total)).length = regions.length := by
        rw [(List.perm_insertionSort fracGe _).length_eq]
        simp [fractionalAllocation]
      rw [hslen]
      have hlt := remaining_lt_length regions total hne hWne
      omega
    rw [hwlen]
    have hrc : remainingCount regions total =
        total - sumCounts (baseAllocation regions total) := rfl
    omega
  · rw [if_neg hrem] at hl
    injection hl with hl2
    subst hl2
    have hnn := remaining_nonneg regions total hWne
    have hrc : remainingCount regions total =
        total - sumCounts (baseAllocation regions total) := rfl
    omega

/-- In the stable descending sort, every entry of the `k`-element prefix
has a positive remainder, provided more than `k` entries have positive
remainders. -/
theorem take_sorted_pos (l : List (String × ℚ)) (k : ℕ)
    (hcount : k < l.countP fun q => decide (0 < q.2)) :
    ∀ q ∈ (List.insertionSort fracGe l).take k, 0 < q.2 := by
  intro q hq
  by_contra hq2
  push_neg at hq2
  have hperm := List.perm_insertionSort fracGe l
  have hsort : List.Pairwise fracGe (List.insertionSort fracGe l) :=
    List.sorted_insertionSort fracGe l
  obtain ⟨u, w, huw⟩ := List.append_of_mem hq
  have hsplit : List.insertionSort fracGe l =
      u ++ q :: (w ++ (List.insertionSort fracGe l).drop k) := by
    conv_lhs => rw [← List.take_append_drop k (List.insertionSort fracGe l)]
    rw [huw]
    simp [List.append_assoc]
  rw [hsplit] at hsort
  have htail : ∀ y ∈ w ++ (List.insertionSort fracGe l).drop k,
      y.2 ≤ q.2 := by
    have h1 := (List.pairwise_append.mp hsort).2.1
    exact fun y hy => (List.pairwise_cons.mp h1).1 y hy
  have hcounteq : (l.countP fun q => decide (0 < q.2)) =
      ((u ++ q :: (w ++ (List.insertionSort fracGe l).drop k)).countP
        fun q => decide (0 < q.2)) := by
    rw [← hsplit]
    exact (hperm.countP_eq _).symm
  rw [List.countP_append, List.countP_cons] at hcounteq
  have hqz : (if decide (0 < q.2) = true then 1 else 0) = 0 := by
    rw [if_neg]
    simp only [decide_eq_true_eq]
    exact not_lt.mpr hq2
  have htz : ((w ++ (List.insertionSort fracGe l).drop k).countP
      fun q => decide (0 < q.2)) = 0 := by
    rw [List.countP_eq_zero]
    intro y hy
    simp only [decide_eq_true_eq]
    exact not_lt.mpr ((htail y hy).trans hq2)
  have hule : (u.countP fun q => decide (0 < q.2)) ≤ u.length :=
    List.countP_le_length _
  have hulen : u.length < k := by
    have hlen := congrArg List.length huw
    simp only [List.length_take, List.length_append, List.length_cons] at hlen
    omega
  omega

/-- When `remaining` is positive, it is strictly below the number of
regions with a positive fractional remainder. -/
theorem remaining_lt_posCount (regions : List (String × ℚ)) (total : ℤ)
    (hW : totalPopulation regions ≠ 0)
    (hrem : 0 < remainingCount regions total) :
    (remainingCount regions total).toNat <
      ((fractionalAllocation regions total).countP
        fun q => decide (0 < q.2)) := by
  have hcast := remaining_cast regions total hW
  have hlt1 : ∀ x ∈ (fractionalAllocation regions total).map Prod.snd,
      x < 1 := fun x hx => (frac_snd_bounds regions total x hx).2
  have hposS : 0 <
      ((fractionalAllocation regions total).map Prod.snd).sum := by
    rw [← hcast]
    exact_mod_cast hrem
  have hslt := sum_lt_countP _ hlt1 hposS
  rw [← hcast] at hslt
  have hcp : (((fractionalAllocation regions total).map Prod.snd).countP
      fun x => decide (0 < x)) =
      ((fractionalAllocation regions total).countP
        fun q => decide (0 < q.2)) := by
    rw [List.countP_map]
    rfl
  rw [hcp] at hslt
  have h2 : remainingCount regions total <
      (((fractionalAllocation regions total).countP
        fun q => decide (0 < q.2) : ℕ) : ℤ) := by
    exact_mod_cast hslt
  omega

/-- A winning region name pins down a positive fractional remainder at its
own index: the stable sort permutes the `(name, remainder)` pairs, and
duplicate-free names identify the pair. -/
theorem winner_frac_pos (regions : List (String × ℚ)) (total : ℤ)
    (hnodup : (regions.map Prod.fst).Nodup)
    (hW : totalPopulation regions ≠ 0)
    (hrem : 0 < remainingCount regions total)
    (i : ℕ) (hi : i < regions.length)
    (hwin : (regions.get ⟨i, hi⟩).1 ∈ winnersList regions total) :
    0 < (regions.get ⟨i, hi⟩).2 / totalPopulation regions * (total : ℚ) -
      (⌊(regions.get ⟨i, hi⟩).2 / totalPopulation regions *
        (total : ℚ)⌋ : ℚ) := by
  rw [winnersList] at hwin
  obtain ⟨q, hqtake, hqname⟩ := List.mem_map.mp hwin
  have hqpos : 0 < q.2 :=
    take_sorted_pos (fractionalAllocation regions total)
      (remainingCount regions total).toNat
      (remaining_lt_posCount regions total hW hrem) q hqtake
  have hqmem : q ∈ fractionalAllocation regions total :=
    (List.perm_insertionSort fracGe _).mem_iff.mp
      (List.mem_of_mem_take hqtake)
  obtain ⟨j, hj⟩ := List.mem_iff_get.mp hqmem
  have hjlen : (j : ℕ) < regions.length := by
    have := j.2
    simpa [fractionalAllocation] using this
  have hjget : (fractionalAllocation regions total).get j =
      ((regions.get ⟨j, hjlen⟩).1,
        (regions.get ⟨j, hjlen⟩).2 / totalPopulation regions * (total : ℚ) -
          (⌊(regions.get ⟨j, hjlen⟩).2 / totalPopulation regions *
            (total : ℚ)⌋ : ℚ)) := by
    simp [fractionalAllocation, List.get_eq_getElem, List.getElem_map]
  have hnames : (regions.get ⟨j, hjlen⟩).1 = (regions.get ⟨i, hi⟩).1 := by
    rw [← hj, hjget] at hqname
    exact hqname
  have hij : i = j := by
    have hleni : i < (regions.map Prod.fst).length := by simpa using hi
    have hlenj : (j : ℕ) < (regions.map Prod.fst).length := by
      simpa using hjlen
    have hgi : (regions.map Prod.fst).get ⟨i, hleni⟩ =
        (regions.get ⟨i, hi⟩).1 := by
      simp [List.get_eq_getElem, List.getElem_map]
    have hgj : (regions.map Prod.fst).get ⟨j, hlenj⟩ =
        (regions.get ⟨j, hjlen⟩).1 := by
      simp [List.get_eq_getElem, List.getElem_map]
    have heq : (regions.map Prod.fst).get ⟨i, hleni⟩ =
        (regions.map Prod.fst).get ⟨j, hlenj⟩ := by
      rw [hgi, hgj, hnames]
    have := (List.Nodup.get_inj_iff hnodup).mp heq
    exact congrArg Fin.val this
  subst hij
  have hq2 : q.2 = (regions.get ⟨(j : ℕ), hjlen⟩).2 /
      totalPopulation regions * (total : ℚ) -
      (⌊(regions.get ⟨(j : ℕ), hjlen⟩).2 / totalPopulation regions *
        (total : ℚ)⌋ : ℚ) := by
    rw [← hj, hjget]
  exact hq2 ▸ hqpos

/-- Claim C2: with a positive number of regions, positive total weight,
and `total ≥ 0`, every region's allocated count lies between the floor and
the ceiling of its exact proportional share. -/
theorem allocate_within_floor_ceil (regions : List (String × ℚ)) (total : ℤ)
    (hne : regions ≠ []) (hW : 0 < totalPopulation regions)
    (hnodup : (regions.map Prod.fst).Nodup) (htotal : 0 ≤ total) :
    ∀ l, allocateCore regions total = Except.ok l →
      l.length = regions.length ∧
      ∀ (i : ℕ) (hi : i < regions.length) (hl : i < l.length),
        ⌊(regions.get ⟨i, hi⟩).2 / totalPopulation regions * (total : ℚ)⌋ ≤
            (l.get ⟨i, hl⟩).2 ∧
          (l.get ⟨i, hl⟩).2 ≤
            ⌈(regions.get ⟨i, hi⟩).2 / totalPopulation regions *
              (total : ℚ)⌉ := by
  intro l hl
  have hWne : totalPopulation regions ≠ 0 := ne_of_gt hW
  have hcond : ¬(regions ≠ [] ∧ totalPopulation regions = 0) :=
    fun h => hWne h.2
  rw [allocateCore, if_neg hcond] at hl
  by_cases hrem : 0 < remainingCount regions total
  · rw [if_pos hrem] at hl
    injection hl with hl2
    subst hl2
    constructor
    · simp [baseAllocation]
    intro i hi hlen
    have hget : (((baseAllocation regions total).map fun p =>
        (p.1, p.2 + if p.1 ∈ winnersList regions total then 1 else 0)).get
          ⟨i, hlen⟩) =
        ((regions.get ⟨i, hi⟩).1,
          ⌊(regions.get ⟨i, hi⟩).2 / totalPopulation regions * (total : ℚ)⌋ +
            if (regions.get ⟨i, hi⟩).1 ∈ winnersList regions total then 1
            else 0) := by
      simp [baseAllocation, List.get_eq_getElem, List.getElem_map]
    rw [hget]
    by_cases hwin : (regions.get ⟨i, hi⟩).1 ∈ winnersList regions total
    · rw [if_pos hwin]
      have hfpos := winner_frac_pos regions total hnodup hWne hrem i hi hwin
      constructor
      · omega
      · have hflt : (⌊(regions.get ⟨i, hi⟩).2 / totalPopulation regions *
            (total : ℚ)⌋ : ℚ) <
            (regions.get ⟨i, hi⟩).2 / totalPopulation regions *
              (total : ℚ) := by
          linarith
        have := Int.lt_ceil.mpr hflt
        omega
    · rw [if_neg hwin]
      simp only [Int.add_zero]
      exact ⟨le_rfl, Int.floor_le_ceil _⟩
  · rw [if_neg hrem] at hl
    injection hl with hl2
    subst hl2
    constructor
    · simp [baseAllocation]
    intro i hi hlen
    have hget : ((baseAllocation regions total).get ⟨i, hlen⟩) =
        ((regions.get ⟨i, hi⟩).1,
          ⌊(regions.get ⟨i, hi⟩).2 / totalPopulation regions *
            (total : ℚ)⌋) := by
      simp [baseAllocation, List.get_eq_getElem, List.getElem_map]
    rw [hget]
    exact ⟨le_rfl, Int.floor_le_ceil _⟩

/-- The stable sort leaves a list with all-equal sort keys exactly in its
original order: `sorted(..., reverse=True)` never reorders ties. -/
theorem insertionSort_const_snd (l : List (String × ℚ)) (c : ℚ)
    (h : ∀ p ∈ l, p.2 = c) : List.insertionSort fracGe l = l := by
  induction l with
  | nil => rfl
  | cons a t ih =>
    simp only [List.insertionSort]
    rw [ih fun p hp => h p (by simp [hp])]
    cases t with
    | nil => rfl
    | cons b t2 =>
      apply List.orderedInsert_of_le
      show b.2 ≤ a.2
      rw [h a (by simp), h b (by simp)]

/-- In a duplicate-free list, the element at index `i` belongs to the
`k`-element prefix exactly when `i < k`. -/
theorem nodup_mem_take_iff (l : List String) (hnd : l.Nodup) (k i : ℕ)
    (hi : i < l.length) : l.get ⟨i, hi⟩ ∈ l.take k ↔ i < k := by
  constructor
  · intro hmem
    obtain ⟨j, hjget⟩ := List.mem_iff_get.mp hmem
    have hjlt : (j : ℕ) < min k l.length := by
      simpa [List.length_take] using j.2
    have hjl : (j : ℕ) < l.length := by omega
    have hgets : l.get ⟨j, hjl⟩ = l.get ⟨i, hi⟩ := by
      rw [← hjget]
      simp [List.get_eq_getElem, List.getElem_take]
    have := (List.Nodup.get_inj_iff hnd).mp hgets
    have hji : (j : ℕ) = i := congrArg Fin.val this
    omega
  · intro hik
    have hlt : i < (l.take k).length := by
      simp only [List.length_take]
      omega
    have hgt : (l.take k).get ⟨i, hlt⟩ = l.get ⟨i, hi⟩ := by
      simp [List.get_eq_getElem, List.getElem_take]
    rw [← hgt]
    exact List.get_mem _ _ _

/-- With all weights equal (the total tie case), the apportionment gives
every region `total / n` and awards the `total % n` leftover units to the
first `total % n` regions in the original iteration order of the weights
mapping. -/
theorem allocate_equal_weights (regions : List (String × ℚ)) (w : ℚ)
    (total : ℤ) (hne : regions ≠ [])
    (hnodup : (regions.map Prod.fst).Nodup)
    (hw : ∀ p ∈ regions, p.2 = w) (hwpos : 0 < w) (htotal : 0 ≤ total) :
    allocateCore regions total = Except.ok (regions.enum.map fun q =>
      (q.2.1, total / (regions.length : ℤ) +
        if (q.1 : ℤ) < total % (regions.length : ℤ) then 1 else 0)) := by
  have hn : 0 < regions.length := List.length_pos.mpr hne
  have hWeq : totalPopulation regions = (regions.length : ℚ) * w := by
    rw [totalPopulation,
      List.sum_eq_card_nsmul _ w
        (fun x hx => by
          obtain ⟨p, hp, hpx⟩ := List.mem_map.mp hx
          exact hpx ▸ hw p hp),
      List.length_map, nsmul_eq_mul]
  have hnq : (0 : ℚ) < (regions.length : ℚ) := by exact_mod_cast hn
  have hWpos : 0 < totalPopulation regions := by
    rw [hWeq]
    exact mul_pos hnq hwpos
  have hWne : totalPopulation regions ≠ 0 := ne_of_gt hWpos
  have hcond : ¬(regions ≠ [] ∧ totalPopulation regions = 0) :=
    fun h => hWne h.2
  have hshare : ∀ p ∈ regions,
      p.2 / totalPopulation regions * (total : ℚ) =
        (total : ℚ) / (regions.length : ℚ) := by
    intro p hp
    rw [hw p hp, hWeq, mul_comm (regions.length : ℚ) w,
      div_mul_eq_mul_div, mul_div_mul_left _ _ (ne_of_gt hwpos)]
  have hfl : ⌊(total : ℚ) / (regions.length : ℚ)⌋ =
      total / (regions.length : ℤ) :=
    Rat.floor_intCast_div_natCast total regions.length
  have hbase : baseAllocation regions total =
      regions.map fun p => (p.1, total / (regions.length : ℤ)) := by
    rw [baseAllocation]
    apply List.map_congr_left
    intro p hp
    rw [hshare p hp, hfl]
  have hsumbase : sumCounts (baseAllocation regions total) =
      (regions.length : ℤ) * (total / (regions.length : ℤ)) := by
    rw [hbase, sumCounts, List.map_map]
    have hcomp : (Prod.snd ∘ fun p : String × ℚ =>
        (p.1, total / (regions.length : ℤ))) =
        fun _ : String × ℚ => total / (regions.length : ℤ) := rfl
    rw [hcomp,
      List.sum_eq_card_nsmul _ (total / (regions.length : ℤ))
        (fun x hx => by
          obtain ⟨p, _, hpx⟩ := List.mem_map.mp hx
          exact hpx.symm),
      List.length_map, nsmul_eq_mul]
  have hremeq : remainingCount regions total =
      total % (regions.length : ℤ) := by
    rw [remainingCount, hsumbase, Int.emod_def]
  have hrnn : 0 ≤ total % (regions.length : ℤ) :=
    Int.emod_nonneg total (by exact_mod_cast ne_of_gt hn)
  have hfracs : fractionalAllocation regions total =
      regions.map fun p =>
        (p.1, (total : ℚ) / (regions.length : ℚ) -
          ((total / (regions.length : ℤ) : ℤ) : ℚ)) := by
    rw [fractionalAllocation]
    apply List.map_congr_left
    intro p hp
    rw [hshare p hp, hfl]
  have hsorted : List.insertionSort fracGe
      (fractionalAllocation regions total) =
      fractionalAllocation regions total := by
    apply insertionSort_const_snd _
      ((total : ℚ) / (regions.length : ℚ) -
        ((total / (regions.length : ℤ) : ℤ) : ℚ))
    intro p hp
    rw [hfracs] at hp
    obtain ⟨q, _, hqp⟩ := List.mem_map.mp hp
    exact hqp ▸ rfl
  have hwinners : winnersList regions total =
      (regions.map Prod.fst).take
        (total % (regions.length : ℤ)).toNat := by
    rw [winnersList, hsorted, hremeq, List.map_take,
      fractionalAllocation_fst]
  rw [allocateCore, if_neg hcond]
  by_cases hrem : 0 < remainingCount regions total
  · rw [if_pos hrem]
    congr 1
    apply List.ext_get
    · simp [baseAllocation, List.enum_length]
    intro i h1 h2
    have hil : i < regions.length := by
      simpa [baseAllocation] using h1
    have hget1 : (((baseAllocation regions total).map fun p =>
        (p.1, p.2 + if p.1 ∈ winnersList regions total then 1 else 0)).get
          ⟨i, h1⟩) =
        ((regions.get ⟨i, hil⟩).1, total / (regions.length : ℤ) +
          if (regions.get ⟨i, hil⟩).1 ∈ winnersList regions total then 1
          else 0) := by
      simp [hbase, List.get_eq_getElem, List.getElem_map]
    have hget2 : ((regions.enum.map fun q =>
        (q.2.1, total / (regions.length : ℤ) +
          if (q.1 : ℤ) < total % (regions.length : ℤ) then 1 else 0)).get
            ⟨i, h2⟩) =
        ((regions.get ⟨i, hil⟩).1, total / (regions.length : ℤ) +
          if (i : ℤ) < total % (regions.length : ℤ) then 1 else 0) := by
      simp [List.get_eq_getElem, List.getElem_map, List.getElem_enum]
    rw [hget1, hget2]
    have hnamei : (regions.get ⟨i, hil⟩).1 =
        (regions.map Prod.fst).get ⟨i, by simpa using hil⟩ := by
      simp [List.get_eq_getElem, List.getElem_map]
    have hmemiff : ((regions.get ⟨i, hil⟩).1 ∈ winnersList regions total) ↔
        ((i : ℤ) < total % (regions.length : ℤ)) := by
      rw [hwinners, hnamei,
        nodup_mem_take_iff _ hnodup _ i (by simpa using hil)]
      omega
    by_cases hcase : (i : ℤ) < total % (regions.length : ℤ)
    · rw [if_pos hcase, if_pos (hmemiff.mpr hcase)]
    · rw [if_neg hcase, if_neg (fun hmem => hcase (hmemiff.mp hmem))]
  · rw [if_neg hrem]
    have hzero : total % (regions.length : ℤ) = 0 := by
      rw [hremeq] at hrem
      omega
    congr 1
    apply List.ext_get
    · simp [baseAllocation, List.enum_length]
    intro i h1 h2
    have hil : i < regions.length := by
      simpa [baseAllocation] using h1
    have hget1 : ((baseAllocation regions total).get ⟨i, h1⟩) =
        ((regions.get ⟨i, hil⟩).1, total / (regions.length : ℤ)) := by
      simp [hbase, List.get_eq_getElem, List.getElem_map]
    have hget2 : ((regions.enum.map fun q =>
        (q.2.1, total / (regions.length : ℤ) +
          if (q.1 : ℤ) < total % (regions.length : ℤ) then 1 else 0)).get
            ⟨i, h2⟩) =
        ((regions.get ⟨i, hil⟩).1, total / (regions.length : ℤ) +
          if (i : ℤ) < total % (regions.length : ℤ) then 1 else 0) := by
      simp [List.get_eq_getElem, List.getElem_map, List.getElem_enum]
    rw [hget1, hget2, hzero, if_neg (by omega), Int.add_zero]

/-- In a descending-sorted list, every element of the dropped suffix has a
remainder at most that of every element of the taken prefix. -/
theorem sorted_take_drop_le (s : List (String × ℚ))
    (hsort : List.Pairwise fracGe s) (k : ℕ) :
    ∀ x ∈ s.take k, ∀ y ∈ s.drop k, y.2 ≤ x.2 := by
  have h2 : List.Pairwise fracGe (s.take k ++ s.drop k) := by
    rwa [List.take_append_drop]
  exact fun x hx y hy => (List.pairwise_append.mp h2).2.2 x hx y hy

/-- Inserting `c` into a sorted list keeps `c` before every member `b`
whose remainder does not exceed `c`'s. -/
theorem orderedInsert_pair_sublist (c b : String × ℚ)
    (s : List (String × ℚ)) (hs : List.Sorted fracGe s) (hb : b ∈ s)
    (hcb : b.2 ≤ c.2) :
    List.Sublist [c, b] (List.orderedInsert fracGe c s) := by
  induction s with
  | nil => simp at hb
  | cons d s2 ih =>
    by_cases hcd : fracGe c d
    · rw [List.orderedInsert_of_le _ _ hcd]
      exact List.Sublist.cons₂ c (List.singleton_sublist.mpr hb)
    · have hins : List.orderedInsert fracGe c (d :: s2) =
          d :: List.orderedInsert fracGe c s2 := by
        simp [List.orderedInsert, hcd]
      rw [hins]
      rcases List.mem_cons.mp hb with rfl | hb2
      · exact absurd hcb hcd
      · exact List.Sublist.cons d (ih hs.of_cons hb2)

/-- Stability of the embedded sort for the (non-antisymmetric) descending
remainder preorder: a pair already in the relation's order, appearing in
that order in the input, still appears in that order after sorting.  This
is exactly Python's stable-sort guarantee for `sorted(..., reverse=True)`. -/
theorem stable_pair_sublist (l : List (String × ℚ)) (a b : String × ℚ)
    (hab : List.Sublist [a, b] l) (hba : b.2 ≤ a.2) :
    List.Sublist [a, b] (List.insertionSort fracGe l) := by
  induction l with
  | nil => simp at hab
  | cons c t ih =>
    simp only [List.insertionSort]
    cases hab with
    | cons _ h =>
      exact (ih h).trans (List.sublist_orderedInsert c _)
    | cons₂ _ h =>
      exact orderedInsert_pair_sublist a b _
        (List.sorted_insertionSort fracGe t)
        ((List.perm_insertionSort fracGe t).mem_iff.mpr
          (List.singleton_sublist.mp h)) hba

/-- If `[a, b]` occurs in order in a duplicate-free list and `b` lies in
the `k`-element prefix, so does `a`. -/
theorem sublist_pair_mem_take (s : List (String × ℚ)) (hnd : s.Nodup)
    (k : ℕ) (a b : String × ℚ) (hab : List.Sublist [a, b] s)
    (hb : b ∈ s.take k) : a ∈ s.take k := by
  have hsplit : List.Sublist [a, b] (s.take k ++ s.drop k) := by
    rwa [List.take_append_drop]
  obtain ⟨l1, l2, heq, h1, h2⟩ := List.sublist_append_iff.mp hsplit
  have hdisj := List.nodup_append.mp ((List.take_append_drop k s).symm ▸ hnd)
  cases l1 with
  | nil =>
    rw [List.nil_append] at heq
    subst heq
    have hbdrop : b ∈ s.drop k := h2.subset (by simp)
    exact absurd hbdrop (hdisj.2.2 hb)
  | cons x l3 =>
    have heq2 : a :: [b] = x :: (l3 ++ l2) := by simpa using heq
    injection heq2 with hax htail
    subst hax
    exact h1.subset (List.mem_cons_self a l3)

/-- The pair of elements at two increasing indices is an in-order sublist. -/
theorem pair_sublist_of_lt (l : List (String × ℚ)) (i j : ℕ) (hij : i < j)
    (hi : i < l.length) (hj : j < l.length) :
    List.Sublist [l.get ⟨i, hi⟩, l.get ⟨j, hj⟩] l := by
  have h1 : l.get ⟨i, hi⟩ ∈ l.take (i + 1) := by
    have hlt : i < (l.take (i + 1)).length := by
      simp only [List.length_take]
      omega
    have hg : (l.take (i + 1)).get ⟨i, hlt⟩ = l.get ⟨i, hi⟩ := by
      simp [List.get_eq_getElem, List.getElem_take]
    rw [← hg]
    exact List.get_mem _ _ _
  have h2 : l.get ⟨j, hj⟩ ∈ l.drop (i + 1) := by
    have hlt : j - (i + 1) < (l.drop (i + 1)).length := by
      simp only [List.length_drop]
      omega
    have hidx : i + 1 + (j - (i + 1)) = j := by omega
    have hg : (l.drop (i + 1)).get ⟨j - (i + 1), hlt⟩ = l.get ⟨j, hj⟩ := by
      simp only [List.get_eq_getElem, List.getElem_drop]
      congr 1
    rw [← hg]
    exact List.get_mem _ _ _
  have happ : List.Sublist [l.get ⟨i, hi⟩, l.get ⟨j, hj⟩]
      (l.take (i + 1) ++ l.drop (i + 1)) :=
    List.Sublist.append (List.singleton_sublist.mpr h1)
      (List.singleton_sublist.mpr h2)
  rwa [List.take_append_drop] at happ

/-- The `(name, remainder)` pair at index `i`. -/
theorem fracs_get (regions : List (String × ℚ)) (total : ℤ) (i : ℕ)
    (hfi : i < (fractionalAllocation regions total).length)
    (hi : i < regions.length) :
    (fractionalAllocation regions total).get ⟨i, hfi⟩ =
      ((regions.get ⟨i, hi⟩).1,
        (regions.get ⟨i, hi⟩).2 / totalPopulation regions * (total : ℚ) -
          (⌊(regions.get ⟨i, hi⟩).2 / totalPopulation regions *
            (total : ℚ)⌋ : ℚ)) := by
  simp [fractionalAllocation, List.get_eq_getElem, List.getElem_map]

/-- Region `i`'s name wins a leftover unit exactly when its
`(name, remainder)` pair sits in the `remaining`-element prefix of the
stable descending sort. -/
theorem winner_iff_pair_mem (regions : List (String × ℚ)) (total : ℤ)
    (hnodup : (regions.map Prod.fst).Nodup) (i : ℕ)
    (hi : i < regions.length)
    (hfi : i < (fractionalAllocation regions total).length) :
    (regions.get ⟨i, hi⟩).1 ∈ winnersList regions total ↔
      (fractionalAllocation regions total).get ⟨i, hfi⟩ ∈
        (List.insertionSort fracGe
          (fractionalAllocation regions total)).take
          (remainingCount regions total).toNat := by
  constructor
  · intro hwin
    rw [winnersList] at hwin
    obtain ⟨q, hqtake, hqname⟩ := List.mem_map.mp hwin
    have hqmem : q ∈ fractionalAllocation regions total :=
      (List.perm_insertionSort fracGe _).mem_iff.mp
        (List.mem_of_mem_take hqtake)
    obtain ⟨j, hj⟩ := List.mem_iff_get.mp hqmem
    have hjlen : (j : ℕ) < regions.length := by
      have := j.2
      simpa [fractionalAllocation] using this
    have hjget := fracs_get regions total j j.2 hjlen
    have hnames : (regions.get ⟨j, hjlen⟩).1 = (regions.get ⟨i, hi⟩).1 := by
      rw [← hj, hjget] at hqname
      exact hqname
    have hij : i = (j : ℕ) := by
      have hleni : i < (regions.map Prod.fst).length := by simpa using hi
      have hlenj : (j : ℕ) < (regions.map Prod.fst).length := by
        simpa using hjlen
      have hgi : (regions.map Prod.fst).get ⟨i, hleni⟩ =
          (regions.get ⟨i, hi⟩).1 := by
        simp [List.get_eq_getElem, List.getElem_map]
      have hgj : (regions.map Prod.fst).get ⟨j, hlenj⟩ =
          (regions.get ⟨j, hjlen⟩).1 := by
        simp [List.get_eq_getElem, List.getElem_map]
      have heq : (regions.map Prod.fst).get ⟨i, hleni⟩ =
          (regions.map Prod.fst).get ⟨j, hlenj⟩ := by
        rw [hgi, hgj, hnames]
      have := (List.Nodup.get_inj_iff hnodup).mp heq
      exact congrArg Fin.val this
    subst hij
    exact hj.symm ▸ hqtake
  · intro hmem
    rw [winnersList]
    refine List.mem_map.mpr ⟨_, hmem, ?_⟩
    rw [fracs_get regions total i hfi hi]

/-- Claim C4: the leftover units after the floor step go one each to the
regions with the largest fractional remainders, ties broken by the
original iteration order of the weights mapping (stable sort, never
randomly).  Concretely, `{A: 1, B: 1, C: 1}` with total `2` yields
`{A: 1, B: 1, C: 0}`.  In general every count is its floor or its floor
plus one, a region that received no extra unit never has a strictly
larger remainder than one that did, and of two regions with equal
remainders the earlier one in input order wins first; with all weights
equal the first `total % n` regions in input order each receive one
extra unit. -/
theorem allocate_tie_break_original_order :
    (allocateCore [("A", 1), ("B", 1), ("C", 1)] 2 =
      Except.ok [("A", 1), ("B", 1), ("C", 0)]) ∧
    (∀ (regions : List (String × ℚ)) (total : ℤ),
      (regions.map Prod.fst).Nodup →
      ∀ l, allocateCore regions total = Except.ok l →
      ∀ (i j : ℕ) (hi : i < regions.length) (hj : j < regions.length)
        (hli : i < l.length) (hlj : j < l.length),
        ((l.get ⟨i, hli⟩).2 =
            ⌊(regions.get ⟨i, hi⟩).2 / totalPopulation regions *
              (total : ℚ)⌋ ∨
          (l.get ⟨i, hli⟩).2 =
            ⌊(regions.get ⟨i, hi⟩).2 / totalPopulation regions *
              (total : ℚ)⌋ + 1) ∧
        ((l.get ⟨j, hlj⟩).2 =
            ⌊(regions.get ⟨j, hj⟩).2 / totalPopulation regions *
              (total : ℚ)⌋ + 1 →
          (l.get ⟨i, hli⟩).2 =
            ⌊(regions.get ⟨i, hi⟩).2 / totalPopulation regions *
              (total : ℚ)⌋ →
          (regions.get ⟨i, hi⟩).2 / totalPopulation regions * (total : ℚ) -
              (⌊(regions.get ⟨i, hi⟩).2 / totalPopulation regions *
                (total : ℚ)⌋ : ℚ) ≤
            (regions.get ⟨j, hj⟩).2 / totalPopulation regions *
              (total : ℚ) -
              (⌊(regions.get ⟨j, hj⟩).2 / totalPopulation regions *
                (total : ℚ)⌋ : ℚ)) ∧
        ((regions.get ⟨i, hi⟩).2 / totalPopulation regions * (total : ℚ) -
              (⌊(regions.get ⟨i, hi⟩).2 / totalPopulation regions *
                (total : ℚ)⌋ : ℚ) =
            (regions.get ⟨j, hj⟩).2 / totalPopulation regions *
              (total : ℚ) -
              (⌊(regions.get ⟨j, hj⟩).2 / totalPopulation regions *
                (total : ℚ)⌋ : ℚ) →
          i < j →
          (l.get ⟨j, hlj⟩).2 =
            ⌊(regions.get ⟨j, hj⟩).2 / totalPopulation regions *
              (total : ℚ)⌋ + 1 →
          (l.get ⟨i, hli⟩).2 =
            ⌊(regions.get ⟨i, hi⟩).2 / totalPopulation regions *
              (total : ℚ)⌋ + 1)) ∧
    (∀ (regions : List (String × ℚ)) (w : ℚ) (total : ℤ),
      regions ≠ [] → (regions.map Prod.fst).Nodup →
      (∀ p ∈ regions, p.2 = w) → 0 < w → 0 ≤ total →
      allocateCore regions total = Except.ok (regions.enum.map fun q =>
        (q.2.1, total / (regions.length : ℤ) +
          if (q.1 : ℤ) < total % (regions.length : ℤ) then 1 else 0))) := by
  refine ⟨?_, ?_, ?_⟩
  · have h := allocate_equal_weights [("A", 1), ("B", 1), ("C", 1)] 1 2
      (by simp) (by decide) (by norm_num) (by norm_num) (by norm_num)
    rw [h]
    congr 1
  · intro regions total hnodup l hl i j hi hj hli hlj
    by_cases hcond : regions ≠ [] ∧ totalPopulation regions = 0
    · rw [allocateCore, if_pos hcond] at hl
      simp at hl
    rw [allocateCore, if_neg hcond] at hl
    have hfi : i < (fractionalAllocation regions total).length := by
      simpa [fractionalAllocation] using hi
    have hfj : j < (fractionalAllocation regions total).length := by
      simpa [fractionalAllocation] using hj
    by_cases hrem : 0 < remainingCount regions total
    · rw [if_pos hrem] at hl
      injection hl with hl2
      subst hl2
      have hgi : ((((baseAllocation regions total).map fun p =>
          (p.1, p.2 + if p.1 ∈ winnersList regions total then 1 else 0)).get
            ⟨i, hli⟩).2) =
          ⌊(regions.get ⟨i, hi⟩).2 / totalPopulation regions *
            (total : ℚ)⌋ +
          if (regions.get ⟨i, hi⟩).1 ∈ winnersList regions total then 1
          else 0 := by
        simp [baseAllocation, List.get_eq_getElem, List.getElem_map]
      have hgj : ((((baseAllocation regions total).map fun p =>
          (p.1, p.2 + if p.1 ∈ winnersList regions total then 1 else 0)).get
            ⟨j, hlj⟩).2) =
          ⌊(regions.get ⟨j, hj⟩).2 / totalPopulation regions *
            (total : ℚ)⌋ +
          if (regions.get ⟨j, hj⟩).1 ∈ winnersList regions total then 1
          else 0 := by
        simp [baseAllocation, List.get_eq_getElem, List.getElem_map]
      have hnd_fracs : (fractionalAllocation regions total).Nodup :=
        List.Nodup.of_map Prod.fst
          (by rw [fractionalAllocation_fst]; exact hnodup)
      have hnd_s : (List.insertionSort fracGe
          (fractionalAllocation regions total)).Nodup :=
        ((List.perm_insertionSort fracGe _).nodup_iff).mpr hnd_fracs
      have hsort : List.Pairwise fracGe
          (List.insertionSort fracGe (fractionalAllocation regions total)) :=
        List.sorted_insertionSort fracGe _
      have hwi := winner_iff_pair_mem regions total hnodup i hi hfi
      have hwj := winner_iff_pair_mem regions total hnodup j hj hfj
      refine ⟨?_, ?_, ?_⟩
      · rw [hgi]
        by_cases hw : (regions.get ⟨i, hi⟩).1 ∈ winnersList regions total
        · rw [if_pos hw]
          right
          rfl
        · rw [if_neg hw]
          left
          omega
      · intro hjw hil
        rw [hgj] at hjw
        rw [hgi] at hil
        have hjwin : (regions.get ⟨j, hj⟩).1 ∈ winnersList regions total := by
          by_contra hno
          rw [if_neg hno] at hjw
          omega
        have hiloss : (regions.get ⟨i, hi⟩).1 ∉
            winnersList regions total := by
          intro hyes
          rw [if_pos hyes] at hil
          omega
        have hjmem := hwj.mp hjwin
        have himem : (fractionalAllocation regions total).get ⟨i, hfi⟩ ∉
            (List.insertionSort fracGe
              (fractionalAllocation regions total)).take
              (remainingCount regions total).toNat :=
          fun h => hiloss (hwi.mpr h)
        have hi_in_s : (fractionalAllocation regions total).get ⟨i, hfi⟩ ∈
            List.insertionSort fracGe (fractionalAllocation regions total) :=
          (List.perm_insertionSort fracGe _).mem_iff.mpr
            (List.get_mem _ _ _)
        have hi_drop : (fractionalAllocation regions total).get ⟨i, hfi⟩ ∈
            (List.insertionSort fracGe
              (fractionalAllocation regions total)).drop
              (remainingCount regions total).toNat := by
          rw [← List.take_append_drop (remainingCount regions total).toNat
            (List.insertionSort fracGe
              (fractionalAllocation regions total))] at hi_in_s
          rcases List.mem_append.mp hi_in_s with h | h
          · exact absurd h himem
          · exact h
        have hle := sorted_take_drop_le _ hsort _ _ hjmem _ hi_drop
        rw [fracs_get regions total i hfi hi,
          fracs_get regions total j hfj hj] at hle
        exact hle
      · intro hfeq hij hjw
        rw [hgj] at hjw
        rw [hgi]
        have hjwin : (regions.get ⟨j, hj⟩).1 ∈ winnersList regions total := by
          by_contra hno
          rw [if_neg hno] at hjw
          omega
        have hpair := pair_sublist_of_lt
          (fractionalAllocation regions total) i j hij hfi hfj
        have hba : ((fractionalAllocation regions total).get ⟨j, hfj⟩).2 ≤
            ((fractionalAllocation regions total).get ⟨i, hfi⟩).2 := by
          rw [fracs_get regions total i hfi hi,
            fracs_get regions total j hfj hj]
          exact le_of_eq hfeq.symm
        have hstable := stable_pair_sublist
          (fractionalAllocation regions total) _ _ hpair hba
        have himem := sublist_pair_mem_take _ hnd_s _ _ _ hstable
          (hwj.mp hjwin)
        rw [if_pos (hwi.mpr himem)]
    · rw [if_neg hrem] at hl
      injection hl with hl2
      subst hl2
      have hgi : (((baseAllocation regions total).get ⟨i, hli⟩).2) =
          ⌊(regions.get ⟨i, hi⟩).2 / totalPopulation regions *
            (total : ℚ)⌋ := by
        simp [baseAllocation, List.get_eq_getElem, List.getElem_map]
      have hgj : (((baseAllocation regions total).get ⟨j, hlj⟩).2) =
          ⌊(regions.get ⟨j, hj⟩).2 / totalPopulation regions *
            (total : ℚ)⌋ := by
        simp [baseAllocation, List.get_eq_getElem, List.getElem_map]
      refine ⟨Or.inl hgi, ?_, ?_⟩
      · intro hjw _
        rw [hgj] at hjw
        omega
      · intro _ _ hjw
        rw [hgj] at hjw
        omega
  · intro regions w total h1 h2 h3 h4 h5
    exact allocate_equal_weights regions w total h1 h2 h3 h4 h5

/-- Claim C4, witness: equal weights `{X: 2, Y: 2}` with total `3` give
`X` (first in input order) the leftover unit, and for the
unequal-remainder input `{A: 1, B: 3}` with total `1` (remainders `1/4`
and `3/4`, where `B` wins the unit and `A` does not), the losing region's
remainder is indeed at most the winning region's. -/
theorem allocate_tie_break_original_order_witness :
    (allocateCore [("X", 2), ("Y", 2)] 3 =
      Except.ok [("X", 2), ("Y", 1)]) ∧
    (1 : ℚ) / 4 - (⌊(1 : ℚ) / 4⌋ : ℚ) ≤
      (3 : ℚ) / 4 - (⌊(3 : ℚ) / 4⌋ : ℚ) := by
  have h14 : (⌊(1 : ℚ) / 4⌋ : ℤ) = 0 := by
    rw [Int.floor_eq_iff] <;> norm_num
  have h34 : (⌊(3 : ℚ) / 4⌋ : ℤ) = 0 := by
    rw [Int.floor_eq_iff] <;> norm_num
  constructor
  · have h := allocate_tie_break_original_order.2.2 [("X", 2), ("Y", 2)] 2 3
      (by simp) (by decide) (by norm_num) (by norm_num) (by norm_num)
    rw [h]
    congr 1
  · have hok : allocateCore [("A", 1), ("B", 3)] 1 =
        Except.ok [("A", 0), ("B", 1)] := by
      norm_num [allocateCore, remainingCount, baseAllocation, sumCounts,
        totalPopulation, winnersList, fractionalAllocation,
        List.insertionSort, List.orderedInsert, fracGe, h14, h34]
      decide
    have h := (allocate_tie_break_original_order.2.1 [("A", 1), ("B", 3)] 1
      (by decide) [("A", 0), ("B", 1)] hok 0 1 (by norm_num) (by norm_num)
      (by norm_num) (by norm_num)).2.1
      (by norm_num [totalPopulation, List.get, h34])
      (by norm_num [totalPopulation, List.get, h14])
    have hconv := h
    norm_num [totalPopulation, List.get] at hconv
    convert hconv using 2 <;> norm_num

/-- Claim C2, witness: weights `{A: 3, B: 1}` with total `4`: region A's
count `3` lies between the floor and ceiling of its exact share `3`. -/
theorem allocate_within_floor_ceil_witness :
    ⌊(3 : ℚ) / 4 * 4⌋ ≤ (3 : ℤ) ∧ (3 : ℤ) ≤ ⌈(3 : ℚ) / 4 * 4⌉ := by
  have h := allocate_within_floor_ceil [("A", 3), ("B", 1)] 4 (by simp)
    (by norm_num [totalPopulation]) (by decide) (by norm_num)
    [("A", 3), ("B", 1)]
    (by norm_num [allocateCore, remainingCount, baseAllocation, sumCounts,
      totalPopulation])
  have h0 := h.2 0 (by norm_num) (by norm_num)
  have hW : totalPopulation [(("A" : String), (3 : ℚ)), ("B", 1)] = 4 := by
    norm_num [totalPopulation]
  rw [hW] at h0
  simpa using h0

/-- Claim C1 (amended), witness: weights `{A: 3, B: 1}` with total `4`
allocate `{A: 3, B: 1}`, summing to `4`. -/
theorem allocate_sum_eq_total_witness :
    sumCounts [("A", 3), ("B", 1)] = 4 :=
  allocate_sum_eq_total [("A", 3), ("B", 1)] 4 (by simp)
    (by norm_num) (by decide) (by norm_num) [("A", 3), ("B", 1)]
    (by norm_num [allocateCore, remainingCount, baseAllocation, sumCounts,
      totalPopulation])

end DatasetMapping
